import Mathlib

/-!
Verification of the Q4X animation converter's container/stream parser and
timeline reconstruction logic (src/main.py), as a shallow embedding.

Byte streams are `List ℕ` (each entry a byte value `< 256`); file/stream
cursors become explicit positions; Python's `read` that may return fewer
bytes than requested is `List.take`/`List.drop`.  Python float division of
durations by 1000 (and the comparison with 180) is modelled exactly over ℚ,
and `math.ceil(ms / 20)` over ℚ as well; in the value ranges that occur
(32-bit frame durations) the double-precision computation in the source is
exact, so the rational model coincides with it.
-/

/-- Interpretation of a byte string as a big-endian unsigned integer,
as `int.from_bytes(bs, byteorder="big", signed=False)` does; the empty
string yields `0`. -/
def beBytesToNat (bs : List ℕ) : ℕ :=
  bs.foldl (fun acc b => acc * 256 + b) 0

/-- Big-endian 4-byte encoding of a natural number below `2^32`
(used to build concrete test containers and frame records). -/
def be4 (n : ℕ) : List ℕ :=
  [n / 16777216 % 256, n / 65536 % 256, n / 256 % 256, n % 256]

theorem beBytesToNat_be4 (n : ℕ) (h : n < 4294967296) : beBytesToNat (be4 n) = n := by
  simp only [beBytesToNat, be4, List.foldl_cons, List.foldl_nil]
  omega

theorem be4_length (n : ℕ) : (be4 n).length = 4 := rfl

-- region Constants (src/main.py lines 12-19)

def matrix_width : ℕ := 32

def matrix_height : ℕ := 26

/-- Size in bytes of one pixel block: `32 * 26 * 3` ("Not modifiable"). -/
def qpr_frame_size : ℕ := 32 * 26 * 3

-- endregion

/-- Duration Quantizer (src/main.py lines 106-110 and 162-166; both sites
run the identical computation): a duration that is not a multiple of 20 ms
is replaced by `math.ceil(ms / 20) * 20`, an aligned one is returned
unchanged. -/
def quantize (ms : ℤ) : ℤ :=
  if ms % 20 ≠ 0 then ⌈(ms : ℚ) / 20⌉ * 20 else ms

/-- Container Reader (src/main.py `parse_q4x`, lines 22-55): validates the
magic, the matrix dimensions and the two sub-block length fields, and
returns the raw (still compressed) QPR bytes.  The subsequent
`zlib.decompress` call and the optional audio block are external to the
verified core; every `FormatError` of the reader proper is raised before
them.  `q4x.read(n)` at position `p` is `(file.drop p).take n`; a short
read exhausts the file, after which every later read returns the empty
string under both the real cursor and the fixed offsets used here, so the
two agree on all inputs. -/
def parse_q4x (file : List ℕ) : Except String (List ℕ) :=
  let file_magic := file.take 4
  if file_magic = [] ∨ (file_magic ≠ [81, 52, 88, 49] ∧ file_magic ≠ [81, 52, 88, 50]) then
    .error "Invalid file magic"
  else
    let width := beBytesToNat ((file.drop 4).take 2)
    if width = 0 ∨ width ≠ matrix_width then .error "Invalid matrix width"
    else
      let height := beBytesToNat ((file.drop 6).take 2)
      if height = 0 ∨ height ≠ matrix_height then .error "Invalid matrix height"
      else
        let q4z_size := beBytesToNat ((file.drop 8).take 4)
        if q4z_size = 0 then .error "Missing qp4"
        else
          let qprz_size := beBytesToNat ((file.drop (12 + q4z_size)).take 4)
          if qprz_size = 0 then .error "Missing qpr"
          else
            let qprz := (file.drop (16 + q4z_size)).take qprz_size
            if qprz = [] then .error "Missing qpr"
            else .ok qprz

/-- Test whether a byte is a UTF-8 continuation byte (`0x80`-`0xBF`). -/
def contB (b : ℕ) : Bool := 128 ≤ b && b ≤ 191

/-- State machine for strict UTF-8 decoding (Python's
`bytes.decode("utf_8")`).  `pending` is the number of continuation bytes
still expected for the current character, `lo`/`hi` the admissible range
of the next byte (the lead bytes `E0`, `ED`, `F0`, `F4` constrain their
first continuation byte to exclude overlong forms, surrogates and values
above `U+10FFFF`, as CPython does), `cnt` the number of characters
completed so far.  Returns `some` of the decoded length, or `none` when
decoding raises `UnicodeDecodeError`. -/
def utf8CountAux (l : List ℕ) (pending lo hi cnt : ℕ) : Option ℕ :=
  match l with
  | [] => if pending = 0 then some cnt else none
  | b :: rest =>
    match pending with
    | 0 =>
      if b ≤ 127 then utf8CountAux rest 0 128 191 (cnt + 1)
      else if 194 ≤ b && b ≤ 223 then utf8CountAux rest 1 128 191 cnt
      else if b = 224 then utf8CountAux rest 2 160 191 cnt
      else if 225 ≤ b && b ≤ 236 then utf8CountAux rest 2 128 191 cnt
      else if b = 237 then utf8CountAux rest 2 128 159 cnt
      else if 238 ≤ b && b ≤ 239 then utf8CountAux rest 2 128 191 cnt
      else if b = 240 then utf8CountAux rest 3 144 191 cnt
      else if 241 ≤ b && b ≤ 243 then utf8CountAux rest 3 128 191 cnt
      else if b = 244 then utf8CountAux rest 3 128 143 cnt
      else none
    | p + 1 =>
      if lo ≤ b && b ≤ hi then
        match p with
        | 0 => utf8CountAux rest 0 128 191 (cnt + 1)
        | q + 1 => utf8CountAux rest (q + 1) 128 191 cnt
      else none

/-- Number of code points of a byte string under strict UTF-8 decoding:
`some k` when the bytes are valid UTF-8 encoding `k` characters (so `len`
of the decoded Python `str` is `k`), `none` on a decoding error. -/
def utf8Count (l : List ℕ) : Option ℕ := utf8CountAux l 0 128 191 0

theorem utf8CountAux_of_ascii (bs : List ℕ) (lo hi cnt : ℕ) (h : ∀ b ∈ bs, b < 128) :
    utf8CountAux bs 0 lo hi cnt = some (cnt + bs.length) := by
  induction bs generalizing lo hi cnt with
  | nil => rfl
  | cons b rest ih =>
    have hb : b ≤ 127 := by have := h b (by simp); omega
    rw [utf8CountAux]
    simp only [if_pos hb, ih 128 191 (cnt + 1) (fun x hx => h x (by simp [hx]))]
    simp only [List.length_cons]
    congr 1
    omega

/-- An ASCII byte string decodes to one character per byte. -/
theorem utf8Count_of_ascii (bs : List ℕ) (h : ∀ b ∈ bs, b < 128) :
    utf8Count bs = some bs.length := by
  simpa using utf8CountAux_of_ascii bs 128 191 0 h

/-- Model of `BytesIO.readline` starting at position `pos`: the line runs
up to and including the first newline byte (`0x0A`) at or after `pos`, or
to the end of the stream if there is none; the returned position is the
advanced cursor. -/
def readlineAt (s : List ℕ) (pos : ℕ) : List ℕ × ℕ :=
  let rest := s.drop pos
  let line :=
    match rest.findIdx? (fun b => b = 10) with
    | some i => rest.take (i + 1)
    | none => rest
  (line, pos + line.length)

theorem readlineAt_snd (s : List ℕ) (pos : ℕ) :
    (readlineAt s pos).2 = pos + (readlineAt s pos).1.length := rfl

/-- Bytes Python's `int()` (and `str.strip`) treats as whitespace, within
the ASCII range the duration line is constrained to. -/
def isSpaceByte (b : ℕ) : Bool := b = 32 || b = 9 || b = 10 || b = 13 || b = 11 || b = 12

def isDigitByte (b : ℕ) : Bool := 48 ≤ b && b ≤ 57

/-- Value of a non-empty all-digit byte string in base 10. -/
def digitsVal (ds : List ℕ) : ℕ := ds.foldl (fun acc b => acc * 10 + (b - 48)) 0

def parseDigits (ds : List ℕ) : Option ℕ :=
  if ds ≠ [] ∧ ds.all isDigitByte then some (digitsVal ds) else none

def stripSpaces (bs : List ℕ) : List ℕ :=
  ((bs.dropWhile isSpaceByte).reverse.dropWhile isSpaceByte).reverse

/-- Model of Python `int(line)` on the decoded ASCII duration line:
surrounding whitespace is stripped, an optional sign prefix is accepted,
and the rest must be a non-empty digit string; `none` is a `ValueError`. -/
def parseIntBytes (bs : List ℕ) : Option ℤ :=
  match stripSpaces bs with
  | 45 :: ds => (parseDigits ds).map (fun n => -(n : ℤ))
  | 43 :: ds => (parseDigits ds).map (fun n => (n : ℤ))
  | ds => (parseDigits ds).map (fun n => (n : ℤ))

/-- Byte string of the literal header line `"qpr v1\n"`. -/
def qprV1 : List ℕ := [113, 112, 114, 32, 118, 49, 10]

/-- Animation Header Parser (src/main.py `parse_qpr`, lines 78-115): reads
four newline-terminated lines (version tag, name, audio flag, duration),
validates them as the source does, quantizes the declared duration and
returns `(animation_duration_ms, position after the header,
length_without_header)`.  `header_length` sums `len` of the *decoded*
first three lines only — the source accumulates it at lines 87, 93 and
99 and never adds the duration line read at line 101 — and each summand
is a code-point count: the byte count for the two ASCII lines, the
`utf8Count` for the UTF-8 name line. -/
def parse_qpr (qpr : List ℕ) : Except String (ℤ × ℕ × ℤ) :=
  let l1 := (readlineAt qpr 0).1
  let p1 := (readlineAt qpr 0).2
  if ∀ b ∈ l1, b < 128 then
    if l1 = qprV1 then
      let l2 := (readlineAt qpr p1).1
      let p2 := (readlineAt qpr p1).2
      match utf8Count l2 with
      | some n2 =>
        if l2 = [] then .error "Invalid qpr"
        else
          let l3 := (readlineAt qpr p2).1
          let p3 := (readlineAt qpr p2).2
          if ∀ b ∈ l3, b < 128 then
            if l3 = [] then .error "Invalid qpr"
            else
              let l4 := (readlineAt qpr p3).1
              let p4 := (readlineAt qpr p3).2
              if ∀ b ∈ l4, b < 128 then
                if l4 = [] then .error "Invalid qpr"
                else
                  match parseIntBytes l4 with
                  | some ms =>
                    .ok (quantize ms, p4,
                      (qpr.length : ℤ) - (l1.length + n2 + l3.length))
                  | none => .error "ValueError"
              else .error "UnicodeDecodeError"
          else .error "UnicodeDecodeError"
      | none => .error "UnicodeDecodeError"
    else .error "Invalid qpr"
  else .error "UnicodeDecodeError"

/-- Frame Decoder loop (src/main.py `main`, lines 135-170): starting from
the stream position after the header, repeatedly read a
`qpr_frame_size`-byte pixel block (`frame`); the loop runs while the read
returned a non-empty block and the accumulated durations do not exceed
180 s.  A non-empty block of the wrong size raises
`RuntimeError("Invalid qpr frame")`; otherwise the following 4 bytes are
read as the big-endian frame duration, quantized, converted to seconds
and appended, and the block is appended to the frame list.  (The
rendering of the pixel block to a raster surface is external; the frame
list here keeps the raw pixel block.) -/
def decodeLoop (s : List ℕ) (durations_s : List ℚ) (frames : List (List ℕ)) :
    Except String (List ℚ × List (List ℕ)) :=
  if h1 : s.take qpr_frame_size = [] ∨ 180 < durations_s.sum then .ok (durations_s, frames)
  else if h2 : (s.take qpr_frame_size).length ≠ qpr_frame_size then
    .error "Invalid qpr frame"
  else
    decodeLoop ((s.drop qpr_frame_size).drop 4)
      (durations_s ++ [((quantize (beBytesToNat ((s.drop qpr_frame_size).take 4)) : ℤ) : ℚ) / 1000])
      (frames ++ [s.take qpr_frame_size])
termination_by s.length
decreasing_by
  push_neg at h1 h2
  have hlen : (s.take qpr_frame_size).length = min qpr_frame_size s.length :=
    List.length_take qpr_frame_size s
  have hq : qpr_frame_size = 2496 := rfl
  simp only [List.length_drop]
  omega

/-- Exit case of the Frame Decoder loop: an empty read or an accumulated
duration beyond 180 s ends the loop normally with the state unchanged. -/
theorem decodeLoop_exit (s : List ℕ) (durs : List ℚ) (frs : List (List ℕ))
    (h : s = [] ∨ 180 < durs.sum) : decodeLoop s durs frs = .ok (durs, frs) := by
  rw [decodeLoop]
  rw [dif_pos]
  rcases h with h | h
  · exact Or.inl (by simp [h])
  · exact Or.inr h

/-- Error case of the Frame Decoder loop: a non-empty stream shorter than
one pixel block fails as a truncated frame. -/
theorem decodeLoop_short (s : List ℕ) (durs : List ℚ) (frs : List (List ℕ))
    (h0 : s ≠ []) (h1 : s.length < qpr_frame_size) (h2 : durs.sum ≤ 180) :
    decodeLoop s durs frs = .error "Invalid qpr frame" := by
  have hq : qpr_frame_size = 2496 := rfl
  have htake : (s.take qpr_frame_size).length = s.length := by
    rw [List.length_take]
    omega
  have hc1 : ¬(s.take qpr_frame_size = [] ∨ 180 < durs.sum) := by
    rintro (he | hgt)
    · rcases List.take_eq_nil_iff.mp he with h | h
      · omega
      · exact h0 h
    · exact absurd h2 (not_le.mpr hgt)
  have hc2 : (s.take qpr_frame_size).length ≠ qpr_frame_size := by omega
  rw [decodeLoop]
  rw [dif_neg hc1, dif_pos hc2]

/-- Step case of the Frame Decoder loop: with a full pixel block at the
head of the stream and the cap not yet exceeded, the block and its
quantized duration are consumed. -/
theorem decodeLoop_step (px rest : List ℕ) (durs : List ℚ) (frs : List (List ℕ))
    (hpx : px.length = qpr_frame_size) (hsum : durs.sum ≤ 180) :
    decodeLoop (px ++ rest) durs frs =
      decodeLoop (rest.drop 4)
        (durs ++ [((quantize (beBytesToNat (rest.take 4)) : ℤ) : ℚ) / 1000])
        (frs ++ [px]) := by
  have htake : (px ++ rest).take qpr_frame_size = px := List.take_left' hpx
  have hdrop : (px ++ rest).drop qpr_frame_size = rest := List.drop_left' hpx
  have hne : px ≠ [] := by
    intro h
    rw [h] at hpx
    simp [qpr_frame_size] at hpx
  rw [decodeLoop]
  rw [dif_neg, dif_neg]
  · rw [htake, hdrop]
  · rw [htake, hpx]
    simp
  · rw [htake]
    rintro (he | hgt)
    · exact hne he
    · exact absurd hsum (not_le.mpr hgt)

/-- Header-derived duration bound (src/main.py line 131):
`video_duration = min(animation_duration_ms / 1000, 180)`. -/
def headerDuration (animation_duration_ms : ℤ) : ℚ :=
  min ((animation_duration_ms : ℚ) / 1000) 180

/-- Final output duration (src/main.py lines 172-173):
`video_duration = max(video_duration, min(sum(durations_s), 180))`. -/
def outputDuration (animation_duration_ms : ℤ) (durations_s : List ℚ) : ℚ :=
  max (headerDuration animation_duration_ms) (min durations_s.sum 180)

/-- Core pipeline of `main` on the decompressed animation stream
(src/main.py lines 129-173): parse the header, decode frames from the
cursor position the header parser left, and derive the final video
duration; returns `(video_duration, durations_s, frames)`. -/
def run_main (qpr : List ℕ) : Except String (ℚ × List ℚ × List (List ℕ)) :=
  match parse_qpr qpr with
  | .error e => .error e
  | .ok (animation_duration_ms, pos, _) =>
    match decodeLoop (qpr.drop pos) [] [] with
    | .error e => .error e
    | .ok (durations_s, frames) =>
      .ok (outputDuration animation_duration_ms durations_s, durations_s, frames)

/-- The decoder only ever appends to the duration and frame lists. -/
theorem decodeLoop_extends (s : List ℕ) (durs : List ℚ) (frs : List (List ℕ))
    (d : List ℚ) (f : List (List ℕ)) (h : decodeLoop s durs frs = .ok (d, f)) :
    (∃ e1, d = durs ++ e1) ∧ ∃ e2, f = frs ++ e2 := by
  induction s, durs, frs using decodeLoop.induct with
  | case1 s durs frs h1 =>
    rw [decodeLoop, dif_pos h1] at h
    obtain ⟨rfl, rfl⟩ : durs = d ∧ frs = f := by
      simpa using h
    exact ⟨⟨[], by simp⟩, ⟨[], by simp⟩⟩
  | case2 s durs frs h1 h2 =>
    rw [decodeLoop, dif_neg h1, dif_pos h2] at h
    exact absurd h (by simp)
  | case3 s durs frs h1 h2 ih =>
    rw [decodeLoop, dif_neg h1, dif_neg h2] at h
    obtain ⟨⟨e1, he1⟩, ⟨e2, he2⟩⟩ := ih h
    constructor
    · exact ⟨_, by rw [he1, List.append_assoc]⟩
    · exact ⟨_, by rw [he2, List.append_assoc]⟩

/-- Every pixel block the decoder yields has exactly `qpr_frame_size`
bytes (given the blocks already accumulated do). -/
theorem decodeLoop_frames_size (s : List ℕ) (durs : List ℚ) (frs : List (List ℕ))
    (d : List ℚ) (f : List (List ℕ)) (h : decodeLoop s durs frs = .ok (d, f))
    (hfrs : ∀ b ∈ frs, b.length = qpr_frame_size) :
    ∀ b ∈ f, b.length = qpr_frame_size := by
  induction s, durs, frs using decodeLoop.induct with
  | case1 s durs frs h1 =>
    rw [decodeLoop, dif_pos h1] at h
    obtain ⟨rfl, rfl⟩ : durs = d ∧ frs = f := by simpa using h
    exact hfrs
  | case2 s durs frs h1 h2 =>
    rw [decodeLoop, dif_neg h1, dif_pos h2] at h
    exact absurd h (by simp)
  | case3 s durs frs h1 h2 ih =>
    rw [decodeLoop, dif_neg h1, dif_neg h2] at h
    push_neg at h2
    refine ih h (fun b hb => ?_)
    rcases List.mem_append.mp hb with hb | hb
    · exact hfrs b hb
    · rw [List.mem_singleton.mp hb]
      exact h2

/-- Whenever the decoder consumed a frame, the durations accumulated
strictly before it summed to at most 180 s: the cap check happens before
each consumption. -/
theorem decodeLoop_take_sum_le (s : List ℕ) (durs : List ℚ) (frs : List (List ℕ))
    (d : List ℚ) (f : List (List ℕ)) (h : decodeLoop s durs frs = .ok (d, f)) :
    ∀ i, durs.length ≤ i → i < d.length → (d.take i).sum ≤ 180 := by
  induction s, durs, frs using decodeLoop.induct with
  | case1 s durs frs h1 =>
    rw [decodeLoop, dif_pos h1] at h
    obtain ⟨rfl, rfl⟩ : durs = d ∧ frs = f := by simpa using h
    intro i hle hlt
    omega
  | case2 s durs frs h1 h2 =>
    rw [decodeLoop, dif_neg h1, dif_pos h2] at h
    exact absurd h (by simp)
  | case3 s durs frs h1 h2 ih =>
    rw [decodeLoop, dif_neg h1, dif_neg h2] at h
    push_neg at h1
    intro i hle hlt
    rcases eq_or_lt_of_le hle with heq | hlt2
    · -- the prefix of length `durs.length` is `durs` itself
      obtain ⟨⟨e1, he1⟩, -⟩ := decodeLoop_extends _ _ _ _ _ h
      have hpre : d.take i = durs := by
        rw [he1, ← heq]
        rw [List.append_assoc]
        exact List.take_left' rfl
      rw [hpre]
      exact h1.2
    · refine ih h i ?_ hlt
      simp only [List.length_append, List.length_singleton]
      omega

/-- Quantization leaves a 20 ms-aligned duration unchanged. -/
theorem quantize_aligned (ms : ℤ) (h : ms % 20 = 0) : quantize ms = ms := by
  simp [quantize, h]

/-- Byte stream of `K` identical frame records: one pixel block `px`
followed by the 4-byte big-endian duration `m`, repeated. -/
def mkStream (K : ℕ) (px : List ℕ) (m : ℕ) : List ℕ :=
  match K with
  | 0 => []
  | k + 1 => px ++ (be4 m ++ mkStream k px m)

/-- Decoding `K` well-formed frame records of aligned duration `m` ms
consumes all of them when the accumulated durations stay within the
180 s cap. -/
theorem decodeLoop_mkStream (px : List ℕ) (m : ℕ) (hpx : px.length = qpr_frame_size)
    (hm : m < 4294967296) (hal : m % 20 = 0) :
    ∀ (K : ℕ) (durs : List ℚ) (frs : List (List ℕ)),
      (K = 0 ∨ durs.sum + K * ((m : ℚ) / 1000) ≤ 180) →
      decodeLoop (mkStream K px m) durs frs =
        .ok (durs ++ List.replicate K ((m : ℚ) / 1000), frs ++ List.replicate K px) := by
  intro K
  induction K with
  | zero =>
    intro durs frs _
    simpa using decodeLoop_exit [] durs frs (Or.inl rfl)
  | succ k ih =>
    intro durs frs hcap
    rcases hcap with h0 | hcap
    · exact absurd h0 (Nat.succ_ne_zero k)
    have hq0 : (0 : ℚ) ≤ (m : ℚ) / 1000 := by positivity
    have hK : (0 : ℚ) ≤ ((k + 1 : ℕ) : ℚ) * ((m : ℚ) / 1000) := by positivity
    have hsum : durs.sum ≤ 180 := by linarith
    rw [mkStream]
    rw [decodeLoop_step px (be4 m ++ mkStream k px m) durs frs hpx hsum]
    rw [List.take_left' (be4_length m), List.drop_left' (be4_length m),
      beBytesToNat_be4 m hm, quantize_aligned _ (by omega)]
    have hcast : (((m : ℕ) : ℤ) : ℚ) / 1000 = (m : ℚ) / 1000 := by push_cast; ring
    rw [hcast]
    rw [ih (durs ++ [(m : ℚ) / 1000]) (frs ++ [px]) ?_]
    · rw [List.append_assoc, List.append_assoc]
      simp [List.replicate_succ]
    · right
      rw [List.sum_append]
      push_cast at hcap ⊢
      simp only [List.sum_singleton]
      linarith

/-- Container bytes with valid `"Q4X1"` magic and matching dimensions, a
primary (QP4) block `q4p`, a declared animation-block length `qprLen`,
and the remaining file bytes `rest` after the length field. -/
def mkQ4X (q4p : List ℕ) (qprLen : ℕ) (rest : List ℕ) : List ℕ :=
  ([81, 52, 88, 49, 0, 32, 0, 26] ++ (be4 q4p.length ++ q4p)) ++ (be4 qprLen ++ rest)

/-- Behaviour of the Container Reader on a container whose fixed header is
valid: the outcome depends only on the declared animation-block length and
on how many bytes remain after its length field. -/
theorem parse_q4x_mkQ4X (q4p : List ℕ) (qprLen : ℕ) (rest : List ℕ)
    (h1 : q4p ≠ []) (h2 : q4p.length < 4294967296) (h3 : qprLen < 4294967296) :
    parse_q4x (mkQ4X q4p qprLen rest) =
      if qprLen = 0 then .error "Missing qpr"
      else if rest.take qprLen = [] then .error "Missing qpr"
      else .ok (rest.take qprLen) := by
  have hL0 : q4p.length ≠ 0 := by
    simpa [List.length_eq_zero] using h1
  have hlenA : ([81, 52, 88, 49, 0, 32, 0, 26] ++ (be4 q4p.length ++ q4p)).length
      = 12 + q4p.length := by
    simp [be4]
    omega
  have hdropA : (mkQ4X q4p qprLen rest).drop (12 + q4p.length) = be4 qprLen ++ rest := by
    rw [mkQ4X]
    exact List.drop_left' hlenA
  have hdrop16 : (mkQ4X q4p qprLen rest).drop (16 + q4p.length) = rest := by
    have he : 16 + q4p.length = (12 + q4p.length) + 4 := by omega
    rw [he, ← List.drop_drop, hdropA]
    exact List.drop_left' (be4_length _)
  have hmagic : (mkQ4X q4p qprLen rest).take 4 = [81, 52, 88, 49] := rfl
  have hwidth : ((mkQ4X q4p qprLen rest).drop 4).take 2 = [0, 32] := rfl
  have hheight : ((mkQ4X q4p qprLen rest).drop 6).take 2 = [0, 26] := rfl
  have hq4zf : ((mkQ4X q4p qprLen rest).drop 8).take 4 = be4 q4p.length := rfl
  simp only [parse_q4x]
  rw [hmagic, hwidth, hheight, hq4zf, beBytesToNat_be4 _ h2]
  rw [if_neg (by decide)]
  rw [if_neg (by decide)]
  rw [if_neg (by decide)]
  rw [if_neg hL0]
  rw [hdropA, List.take_left' (be4_length qprLen), beBytesToNat_be4 _ h3, hdrop16]

/-- Inversion of a successful header parse: the version line is the
literal `"qpr v1\n"` (so the name line starts at byte 7), the name line
decoded to some code-point count `n2`, the returned position is the byte
offset after the four lines, and the returned remaining length subtracts
only the first three decoded lengths (`n2` for the name; the duration
line is never counted) from the stream length. -/
theorem parse_qpr_inv (qpr : List ℕ) (ms : ℤ) (pos : ℕ) (rem : ℤ)
    (h : parse_qpr qpr = .ok (ms, pos, rem)) :
    ∃ n2 : ℕ,
      utf8Count (readlineAt qpr 7).1 = some n2 ∧
      pos = 7 + (readlineAt qpr 7).1.length
        + (readlineAt qpr (readlineAt qpr 7).2).1.length
        + (readlineAt qpr (readlineAt qpr (readlineAt qpr 7).2).2).1.length ∧
      rem = (qpr.length : ℤ) - (7 + n2
        + (readlineAt qpr (readlineAt qpr 7).2).1.length) := by
  simp only [parse_qpr] at h
  split at h
  case isFalse => exact absurd h (by simp)
  case isTrue hA1 =>
    split at h
    case isFalse => exact absurd h (by simp)
    case isTrue hl1 =>
      have hp1 : (readlineAt qpr 0).2 = 7 := by
        rw [readlineAt_snd, hl1]
        rfl
      rw [hp1] at h
      split at h
      case h_2 => exact absurd h (by simp)
      case h_1 n2 hn2 =>
        split at h
        case isTrue => exact absurd h (by simp)
        case isFalse hl2 =>
          split at h
          case isFalse => exact absurd h (by simp)
          case isTrue hA3 =>
            split at h
            case isTrue => exact absurd h (by simp)
            case isFalse hl3 =>
              split at h
              case isFalse => exact absurd h (by simp)
              case isTrue hA4 =>
                split at h
                case isTrue => exact absurd h (by simp)
                case isFalse hl4 =>
                  split at h
                  case h_2 => exact absurd h (by simp)
                  case h_1 ms4 hms4 =>
                    obtain ⟨hms, hpos, hrem⟩ :
                        quantize ms4 = ms ∧
                        (readlineAt qpr (readlineAt qpr (readlineAt qpr 7).2).2).2 = pos ∧
                        (qpr.length : ℤ) - ((qprV1.length : ℕ) + n2
                          + (readlineAt qpr (readlineAt qpr 7).2).1.length)
                          = rem := by
                      simpa [hl1] using h
                    refine ⟨n2, hn2, ?_, ?_⟩
                    · rw [← hpos]
                      rw [readlineAt_snd qpr (readlineAt qpr (readlineAt qpr 7).2).2]
                      rw [readlineAt_snd qpr (readlineAt qpr 7).2]
                      rw [readlineAt_snd qpr 7]
                    · rw [← hrem]
                      norm_num [qprV1]

/-- Reduction of the main pipeline given the results of its two stages. -/
theorem run_main_eq (qpr : List ℕ) (ms : ℤ) (pos : ℕ) (rem : ℤ)
    (durs : List ℚ) (frs : List (List ℕ))
    (hp : parse_qpr qpr = .ok (ms, pos, rem))
    (hd : decodeLoop (qpr.drop pos) [] [] = .ok (durs, frs)) :
    run_main qpr = .ok (outputDuration ms durs, durs, frs) := by
  unfold run_main
  rw [hp]
  simp only []
  rw [hd]

/-- C1: for every run of the Timeline Assembler, with `headerDuration`
computed from the quantized declared duration as `min(ms / 1000, 180)` and
`runningSum` the sum of the consumed quantized per-frame durations in
seconds, the final output duration equals
`max(headerDuration, min(runningSum, 180))`; consequently it lies in
`[headerDuration, 180]` and is never smaller than `headerDuration`. -/
theorem output_duration_reconciliation (qpr : List ℕ) (ms : ℤ) (pos : ℕ) (rem : ℤ)
    (durs : List ℚ) (frs : List (List ℕ))
    (hp : parse_qpr qpr = .ok (ms, pos, rem))
    (hd : decodeLoop (qpr.drop pos) [] [] = .ok (durs, frs)) :
    run_main qpr = .ok (outputDuration ms durs, durs, frs)
    ∧ outputDuration ms durs = max (headerDuration ms) (min durs.sum 180)
    ∧ headerDuration ms ≤ outputDuration ms durs
    ∧ outputDuration ms durs ≤ 180 := by
  refine ⟨run_main_eq qpr ms pos rem durs frs hp hd, rfl, le_max_left _ _, ?_⟩
  exact max_le (min_le_right _ _) (min_le_right _ _)

theorem output_duration_reconciliation_witness :
    run_main [113, 112, 114, 32, 118, 49, 10, 65, 10, 121, 10, 50, 48, 10]
      = .ok (outputDuration 20 [], [], [])
    ∧ outputDuration 20 [] = max (headerDuration 20) (min ([] : List ℚ).sum 180)
    ∧ headerDuration 20 ≤ outputDuration 20 []
    ∧ outputDuration 20 [] ≤ 180 :=
  output_duration_reconciliation
    [113, 112, 114, 32, 118, 49, 10, 65, 10, 121, 10, 50, 48, 10] 20 14 3 [] []
    rfl
    (by
      rw [show ([113, 112, 114, 32, 118, 49, 10, 65, 10, 121, 10, 50, 48, 10] :
        List ℕ).drop 14 = [] from rfl]
      exact decodeLoop_exit [] [] [] (Or.inl rfl))

/-- C2: for every non-negative integer duration in milliseconds, the
Duration Quantizer returns `ceil(n / 20) * 20`; it is idempotent, an
already-aligned value is returned unchanged, and (by construction of
`quantize`, invoked both in `parse_qpr` and in the frame loop) the same
rule applies to the header's declared duration and to every frame
duration. -/
theorem quantize_ceil_idempotent (n : ℤ) (h : 0 ≤ n) :
    quantize n = ⌈(n : ℚ) / 20⌉ * 20
    ∧ (n % 20 = 0 → quantize n = n)
    ∧ quantize (quantize n) = quantize n := by
  refine ⟨?_, fun hn => quantize_aligned n hn, ?_⟩
  · by_cases hn : n % 20 = 0
    · obtain ⟨k, hk⟩ := Int.dvd_of_emod_eq_zero hn
      rw [quantize_aligned n hn, hk]
      push_cast
      rw [mul_comm (20 : ℚ) (k : ℚ), mul_div_assoc, div_self (by norm_num : (20:ℚ) ≠ 0),
        mul_one, Int.ceil_intCast]
      ring
    · simp [quantize, hn]
  · have hmod : quantize n % 20 = 0 := by
      by_cases hn : n % 20 = 0
      · rw [quantize_aligned n hn]
        exact hn
      · have : quantize n = ⌈(n : ℚ) / 20⌉ * 20 := by simp [quantize, hn]
        rw [this]
        exact Int.mul_emod_left _ _
    exact quantize_aligned _ hmod

theorem quantize_ceil_idempotent_witness :
    quantize 30 = ⌈(30 : ℚ) / 20⌉ * 20
    ∧ ((30 : ℤ) % 20 = 0 → quantize 30 = 30)
    ∧ quantize (quantize 30) = quantize 30 :=
  quantize_ceil_idempotent 30 (by decide)

/-- C3: each Frame Decoder iteration reads exactly
`matrix_width * matrix_height * 3` bytes of pixel data: a non-empty short
read fails with the truncated-frame error, a zero-byte read terminates
the sequence normally, and the decoder never yields a pixel block shorter
than `qpr_frame_size` bytes. -/
theorem frame_decoder_exact_reads (s : List ℕ) (durs : List ℚ) (frs : List (List ℕ))
    (d : List ℚ) (f : List (List ℕ)) :
    qpr_frame_size = matrix_width * matrix_height * 3
    ∧ (s ≠ [] → s.length < qpr_frame_size → durs.sum ≤ 180 →
        decodeLoop s durs frs = .error "Invalid qpr frame")
    ∧ (s = [] → decodeLoop s durs frs = .ok (durs, frs))
    ∧ (decodeLoop s durs frs = .ok (d, f) → (∀ b ∈ frs, b.length = qpr_frame_size) →
        ∀ b ∈ f, b.length = qpr_frame_size) :=
  ⟨rfl,
   fun h0 h1 h2 => decodeLoop_short s durs frs h0 h1 h2,
   fun h => decodeLoop_exit s durs frs (Or.inl h),
   fun h hf => decodeLoop_frames_size s durs frs d f h hf⟩

theorem frame_decoder_exact_reads_witness :
    decodeLoop [0] [] [] = .error "Invalid qpr frame"
    ∧ decodeLoop [] [] [] = .ok ([], []) :=
  ⟨(frame_decoder_exact_reads [0] [] [] [] []).2.1 (by decide)
      (by norm_num [qpr_frame_size]) (by simp),
   (frame_decoder_exact_reads [] [] [] [] []).2.2.1 rfl⟩

/-- C4: when the accumulated durations exceed 180 s, consumption stopped
without error at the first frame that pushed the running sum over 180 s:
every proper prefix of the consumed durations sums to at most 180, that
frame is included, the output duration is exactly 180 regardless of the
header value, and in the over-cap state the decoder consumes nothing more
from any remaining stream. -/
theorem early_stop_at_cap (s : List ℕ) (d : List ℚ) (f : List (List ℕ)) (ms : ℤ)
    (h : decodeLoop s [] [] = .ok (d, f)) (hover : 180 < d.sum) :
    (∀ i, i < d.length → (d.take i).sum ≤ 180)
    ∧ outputDuration ms d = 180
    ∧ (∀ s2 : List ℕ, decodeLoop s2 d f = .ok (d, f)) := by
  refine ⟨fun i hi => decodeLoop_take_sum_le s [] [] d f h i (by simp) hi, ?_,
    fun s2 => decodeLoop_exit s2 d f (Or.inr hover)⟩
  unfold outputDuration
  rw [min_eq_right (le_of_lt hover)]
  exact max_eq_right (by unfold headerDuration; exact min_le_right _ _)

theorem early_stop_at_cap_witness :
    (∀ i, i < ([(((200000 : ℕ) : ℤ) : ℚ) / 1000] : List ℚ).length →
      (([(((200000 : ℕ) : ℤ) : ℚ) / 1000] : List ℚ).take i).sum ≤ 180)
    ∧ outputDuration 1000 [(((200000 : ℕ) : ℤ) : ℚ) / 1000] = 180
    ∧ (∀ s2 : List ℕ, decodeLoop s2 [(((200000 : ℕ) : ℤ) : ℚ) / 1000]
        [List.replicate 2496 0] = .ok ([(((200000 : ℕ) : ℤ) : ℚ) / 1000],
          [List.replicate 2496 0])) := by
  refine early_stop_at_cap (List.replicate 2496 0 ++ [0, 3, 13, 64]) _ _ 1000 ?_ ?_
  · have hstep := decodeLoop_step (List.replicate 2496 0) [0, 3, 13, 64] [] []
      (by rw [List.length_replicate]; rfl) (by norm_num)
    rw [show ([0, 3, 13, 64] : List ℕ).take 4 = [0, 3, 13, 64] from rfl,
      show ([0, 3, 13, 64] : List ℕ).drop 4 = [] from rfl,
      show beBytesToNat [0, 3, 13, 64] = 200000 from rfl,
      quantize_aligned ((200000 : ℕ) : ℤ) (by decide)] at hstep
    rw [hstep, List.nil_append, List.nil_append]
    exact decodeLoop_exit [] _ _ (Or.inl rfl)
  · simp only [List.sum_singleton]
    norm_num

/-- C5: the Container Reader fails unless the 4-byte magic is one of the
two recognized literals (`"Q4X1"` or `"Q4X2"`) and the two 2-byte
big-endian width and height fields are nonzero and exactly the fixed
matrix constants 32 and 26: on any successful parse all of these hold. -/
theorem container_reader_validation (file : List ℕ) (qprz : List ℕ)
    (h : parse_q4x file = .ok qprz) :
    (file.take 4 = [81, 52, 88, 49] ∨ file.take 4 = [81, 52, 88, 50])
    ∧ beBytesToNat ((file.drop 4).take 2) = matrix_width
    ∧ beBytesToNat ((file.drop 6).take 2) = matrix_height
    ∧ matrix_width = 32 ∧ matrix_height = 26
    ∧ beBytesToNat ((file.drop 4).take 2) ≠ 0
    ∧ beBytesToNat ((file.drop 6).take 2) ≠ 0 := by
  simp only [parse_q4x] at h
  split at h
  case isTrue => exact absurd h (by simp)
  case isFalse hc1 =>
    split at h
    case isTrue => exact absurd h (by simp)
    case isFalse hc2 =>
      split at h
      case isTrue => exact absurd h (by simp)
      case isFalse hc3 =>
        push_neg at hc1 hc2 hc3
        refine ⟨?_, hc2.2, hc3.2, rfl, rfl, hc2.1, hc3.1⟩
        by_cases hA : file.take 4 = [81, 52, 88, 49]
        · exact Or.inl hA
        · exact Or.inr (hc1.2 hA)

theorem container_reader_validation_witness :
    (([81, 52, 88, 49, 0, 32, 0, 26, 0, 0, 0, 1, 9, 0, 0, 0, 1, 7] : List ℕ).take 4
        = [81, 52, 88, 49]
      ∨ ([81, 52, 88, 49, 0, 32, 0, 26, 0, 0, 0, 1, 9, 0, 0, 0, 1, 7] : List ℕ).take 4
        = [81, 52, 88, 50])
    ∧ beBytesToNat ((([81, 52, 88, 49, 0, 32, 0, 26, 0, 0, 0, 1, 9, 0, 0, 0, 1, 7] :
        List ℕ).drop 4).take 2) = matrix_width
    ∧ beBytesToNat ((([81, 52, 88, 49, 0, 32, 0, 26, 0, 0, 0, 1, 9, 0, 0, 0, 1, 7] :
        List ℕ).drop 6).take 2) = matrix_height
    ∧ matrix_width = 32 ∧ matrix_height = 26
    ∧ beBytesToNat ((([81, 52, 88, 49, 0, 32, 0, 26, 0, 0, 0, 1, 9, 0, 0, 0, 1, 7] :
        List ℕ).drop 4).take 2) ≠ 0
    ∧ beBytesToNat ((([81, 52, 88, 49, 0, 32, 0, 26, 0, 0, 0, 1, 9, 0, 0, 0, 1, 7] :
        List ℕ).drop 6).take 2) ≠ 0 :=
  container_reader_validation
    [81, 52, 88, 49, 0, 32, 0, 26, 0, 0, 0, 1, 9, 0, 0, 0, 1, 7] [7] rfl

/-- C6 counterexample: a container declaring a 2-byte QPR block with only
1 byte remaining in the file is accepted by the Container Reader (the
short block is returned for decompression) instead of failing with the
missing-animation-block error, refuting the claim that fewer remaining
bytes than the declared QPR length always produce that error. -/
theorem qpr_short_read_accepted :
    parse_q4x [81, 52, 88, 49, 0, 32, 0, 26, 0, 0, 0, 1, 9, 0, 0, 0, 2, 7] = .ok [7]
    ∧ beBytesToNat ((([81, 52, 88, 49, 0, 32, 0, 26, 0, 0, 0, 1, 9, 0, 0, 0, 2, 7] :
        List ℕ).drop 13).take 4) = 2
    ∧ (([81, 52, 88, 49, 0, 32, 0, 26, 0, 0, 0, 1, 9, 0, 0, 0, 2, 7] :
        List ℕ).drop 17).length = 1
    ∧ (1 : ℕ) < 2 :=
  ⟨rfl, rfl, rfl, by decide⟩

/-- C6 (amended): the Container Reader fails with the
missing-animation-block error when the declared QPR length field is zero
(before any decompression is attempted, which in `parse_q4x` only happens
after a successful return) or when zero bytes remain after the length
field; when at least one byte remains, the possibly short block is
accepted at this stage and handed to the decompressor. -/
theorem qpr_block_presence_check (q4p : List ℕ) (qprLen : ℕ) (rest : List ℕ)
    (h1 : q4p ≠ []) (h2 : q4p.length < 4294967296) (h3 : qprLen < 4294967296) :
    (qprLen = 0 → parse_q4x (mkQ4X q4p qprLen rest) = .error "Missing qpr")
    ∧ (rest = [] → parse_q4x (mkQ4X q4p qprLen rest) = .error "Missing qpr")
    ∧ (qprLen ≠ 0 → rest ≠ [] →
        parse_q4x (mkQ4X q4p qprLen rest) = .ok (rest.take qprLen)) := by
  have hch := parse_q4x_mkQ4X q4p qprLen rest h1 h2 h3
  refine ⟨fun h0 => ?_, fun hr => ?_, fun h0 hr => ?_⟩
  · rw [hch, if_pos h0]
  · rw [hch, hr]
    rcases eq_or_ne qprLen 0 with h0 | h0
    · rw [if_pos h0]
    · rw [if_neg h0, if_pos List.take_nil]
  · have hne : rest.take qprLen ≠ [] := by
      rw [Ne, List.take_eq_nil_iff]
      rintro (hq | hrest)
      · exact h0 hq
      · exact hr hrest
    rw [hch, if_neg h0, if_neg hne]

theorem qpr_block_presence_check_witness :
    ((0 : ℕ) = 0 → parse_q4x (mkQ4X [9] 0 []) = .error "Missing qpr")
    ∧ (([] : List ℕ) = [] → parse_q4x (mkQ4X [9] 0 []) = .error "Missing qpr")
    ∧ ((0 : ℕ) ≠ 0 → ([] : List ℕ) ≠ [] →
        parse_q4x (mkQ4X [9] 0 []) = .ok (([] : List ℕ).take 0)) :=
  qpr_block_presence_check [9] 0 [] (by decide) (by decide) (by decide)

/-- C7 counterexample: on the stream `"qpr v1\n" ++ "é\n" ++ "y\n" ++
"20\n"` (the name `"é"` is the two UTF-8 bytes `C3 A9`), the header
parser returns remaining length 4 although the true number of bytes after
the header is `15 - 15 = 0`: the returned header length sums only the
first three lines and counts the name's code points rather than its
encoded bytes, so it is not the byte length of the four lines and the
remaining-byte count does not equal the true frame-stream byte count. -/
theorem header_length_not_bytes :
    parse_qpr [113, 112, 114, 32, 118, 49, 10, 195, 169, 10, 121, 10, 50, 48, 10]
      = .ok (20, 15, 4)
    ∧ (([113, 112, 114, 32, 118, 49, 10, 195, 169, 10, 121, 10, 50, 48, 10] :
        List ℕ).length : ℤ) - 15 = 0
    ∧ (4 : ℤ) ≠ 0 :=
  ⟨rfl, rfl, by decide⟩

/-- C7 (amended): the header length returned by the Animation Header
Parser is the sum of the decoded code-point counts of the first three
lines only — the duration line is never added — so the computed
remaining-byte count always exceeds the true number of frame-stream
bytes after the header by the duration line's byte length, plus, for a
non-ASCII name, the name's UTF-8 continuation bytes (see the
counterexample).  For an ASCII-only name the overcount is exactly the
duration line's byte length.  The frame decoder itself continues from
the stream cursor and is unaffected. -/
theorem header_length_ascii_exact (qpr : List ℕ) (ms : ℤ) (pos : ℕ) (rem : ℤ)
    (h : parse_qpr qpr = .ok (ms, pos, rem))
    (hascii : ∀ b ∈ (readlineAt qpr 7).1, b < 128) :
    rem = (qpr.length : ℤ) - pos
      + (readlineAt qpr (readlineAt qpr (readlineAt qpr 7).2).2).1.length := by
  obtain ⟨n2, hn2, hpos, hrem⟩ := parse_qpr_inv qpr ms pos rem h
  rw [utf8Count_of_ascii _ hascii] at hn2
  have hn2' : n2 = (readlineAt qpr 7).1.length := (Option.some.inj hn2).symm
  rw [hrem, hpos, hn2']
  push_cast
  ring

theorem header_length_ascii_exact_witness :
    (3 : ℤ) = (([113, 112, 114, 32, 118, 49, 10, 65, 10, 121, 10, 50, 48, 10] :
        List ℕ).length : ℤ) - 14
      + (readlineAt [113, 112, 114, 32, 118, 49, 10, 65, 10, 121, 10, 50, 48, 10]
          (readlineAt [113, 112, 114, 32, 118, 49, 10, 65, 10, 121, 10, 50, 48, 10]
            (readlineAt [113, 112, 114, 32, 118, 49, 10, 65, 10, 121, 10, 50, 48, 10]
              7).2).2).1.length :=
  header_length_ascii_exact
    [113, 112, 114, 32, 118, 49, 10, 65, 10, 121, 10, 50, 48, 10] 20 14 3
    rfl (by decide)

/-- C8 (round-trip): for every `K` and every 20 ms-aligned duration `m`
(in milliseconds, encodable in 4 bytes) with `K * m ≤ 180000` (that is,
`K` times `m / 1000` seconds at most 180 s), decoding a stream of `K`
well-formed frame records of duration `m` yields all `K` frames, a
running sum of `K * (m / 1000)`, and an output duration of
`max(headerDuration, K * (m / 1000))`. -/
theorem round_trip_k_frames (K : ℕ) (px : List ℕ) (m : ℕ) (ms : ℤ)
    (hpx : px.length = qpr_frame_size) (hm : m < 4294967296) (hal : m % 20 = 0)
    (hcap : K * m ≤ 180000) :
    decodeLoop (mkStream K px m) [] [] =
      .ok (List.replicate K ((m : ℚ) / 1000), List.replicate K px)
    ∧ (List.replicate K ((m : ℚ) / 1000)).sum = K * ((m : ℚ) / 1000)
    ∧ outputDuration ms (List.replicate K ((m : ℚ) / 1000))
        = max (headerDuration ms) (K * ((m : ℚ) / 1000)) := by
  have hsum : (List.replicate K ((m : ℚ) / 1000)).sum = K * ((m : ℚ) / 1000) := by
    rw [List.sum_replicate]
    exact nsmul_eq_mul _ _
  have hle : (K : ℚ) * ((m : ℚ) / 1000) ≤ 180 := by
    have hc : ((K * m : ℕ) : ℚ) ≤ 180000 := by exact_mod_cast hcap
    push_cast at hc
    rw [← mul_div_assoc, div_le_iff₀ (by norm_num : (0:ℚ) < 1000)]
    linarith
  refine ⟨?_, hsum, ?_⟩
  · have hrun := decodeLoop_mkStream px m hpx hm hal K [] [] ?_
    · simpa using hrun
    · rcases Nat.eq_zero_or_pos K with h0 | _
      · exact Or.inl h0
      · right
        simpa using hle
  · unfold outputDuration
    rw [hsum, min_eq_left hle]

theorem round_trip_k_frames_witness :
    decodeLoop (mkStream 1 (List.replicate 2496 0) 20) [] [] =
      .ok (List.replicate 1 (((20 : ℕ) : ℚ) / 1000), List.replicate 1 (List.replicate 2496 0))
    ∧ (List.replicate 1 (((20 : ℕ) : ℚ) / 1000)).sum = (1 : ℕ) * (((20 : ℕ) : ℚ) / 1000)
    ∧ outputDuration 1000 (List.replicate 1 (((20 : ℕ) : ℚ) / 1000))
        = max (headerDuration 1000) ((1 : ℕ) * (((20 : ℕ) : ℚ) / 1000)) :=
  round_trip_k_frames 1 (List.replicate 2496 0) 20 1000
    (by rw [List.length_replicate]; rfl) (by decide) (by decide) (by decide)

/-- C9 (implicit tolerance): when the stream ends with a complete pixel
block followed by fewer than 4 bytes of duration data, the decoder raises
no error; the trailing bytes (possibly none) are interpreted big-endian
as that frame's duration — an empty read yields duration 0 — and the
frame is kept, so truncation inside the duration field is silently
accepted rather than reported as a truncated frame. -/
theorem truncated_duration_tolerated (px t : List ℕ) (durs : List ℚ) (frs : List (List ℕ))
    (hpx : px.length = qpr_frame_size) (ht : t.length < 4) (hsum : durs.sum ≤ 180) :
    decodeLoop (px ++ t) durs frs =
      .ok (durs ++ [((quantize (beBytesToNat t) : ℤ) : ℚ) / 1000], frs ++ [px])
    ∧ beBytesToNat [] = 0 := by
  refine ⟨?_, rfl⟩
  rw [decodeLoop_step px t durs frs hpx hsum]
  rw [List.take_of_length_le (by omega), List.drop_eq_nil_of_le (by omega)]
  exact decodeLoop_exit [] _ _ (Or.inl rfl)

theorem truncated_duration_tolerated_witness :
    decodeLoop (List.replicate 2496 0 ++ [1]) [] [] =
      .ok ([] ++ [((quantize (beBytesToNat [1]) : ℤ) : ℚ) / 1000],
        [] ++ [List.replicate 2496 0])
    ∧ beBytesToNat [] = 0 :=
  truncated_duration_tolerated (List.replicate 2496 0) [1] [] []
    (by rw [List.length_replicate]; rfl) (by decide) (by norm_num)

/-- C10 counterexample: the header-only stream `"qpr v1\nA\ny\n-100\n"`
is accepted — Python `int()` parses the signed duration, and
`-100 % 20 == 0` so quantization leaves it unchanged — and decoding
yields no frames and a zero running sum, but the output duration is `0`,
not `headerDuration = min(-100 / 1000, 180) = -1/10` as the claim's
equation demands. -/
theorem header_only_negative_duration :
    parse_qpr [113, 112, 114, 32, 118, 49, 10, 65, 10, 121, 10, 45, 49, 48, 48, 10]
      = .ok (-100, 16, 5)
    ∧ run_main [113, 112, 114, 32, 118, 49, 10, 65, 10, 121, 10, 45, 49, 48, 48, 10]
      = .ok (0, [], [])
    ∧ headerDuration (-100) = -(1 : ℚ) / 10
    ∧ (0 : ℚ) ≠ -(1 : ℚ) / 10 := by
  have hcast : ((-100 : ℤ) : ℚ) / 1000 = -(1 : ℚ) / 10 := by norm_num
  have hhd : headerDuration (-100) = -(1 : ℚ) / 10 := by
    unfold headerDuration
    rw [hcast]
    exact min_eq_left (by norm_num)
  refine ⟨rfl, ?_, hhd, by norm_num⟩
  have hd : decodeLoop
      (([113, 112, 114, 32, 118, 49, 10, 65, 10, 121, 10, 45, 49, 48, 48, 10] :
        List ℕ).drop 16) [] [] = .ok ([], []) := by
    rw [show ([113, 112, 114, 32, 118, 49, 10, 65, 10, 121, 10, 45, 49, 48, 48, 10] :
      List ℕ).drop 16 = [] from rfl]
    exact decodeLoop_exit [] [] [] (Or.inl rfl)
  rw [run_main_eq [113, 112, 114, 32, 118, 49, 10, 65, 10, 121, 10, 45, 49, 48, 48, 10]
    (-100) 16 5 [] [] rfl hd]
  have hout : outputDuration (-100) [] = 0 := by
    unfold outputDuration
    rw [show ([] : List ℚ).sum = 0 from rfl, hhd]
    rw [min_eq_left (by norm_num : (0:ℚ) ≤ 180)]
    exact max_eq_right (by norm_num)
  rw [hout]

/-- C10 (amended): a decompressed stream consisting of exactly the four
valid header lines and no frame bytes decodes successfully with an empty
frame sequence, zero running sum, and an output duration of
`max(headerDuration, 0)`; this equals
`headerDuration = min(quantizedDeclaredDurationMs / 1000, 180)` whenever
the declared duration is non-negative, while a parsable negative declared
duration yields 0 instead (see the counterexample). -/
theorem header_only_stream (qpr : List ℕ) (ms : ℤ) (pos : ℕ) (rem : ℤ)
    (h : parse_qpr qpr = .ok (ms, pos, rem)) (hend : pos = qpr.length) :
    run_main qpr = .ok (max (headerDuration ms) 0, [], [])
    ∧ ([] : List ℚ).sum = 0
    ∧ (0 ≤ ms → max (headerDuration ms) 0 = headerDuration ms) := by
  have hd : decodeLoop (qpr.drop pos) [] [] = .ok ([], []) := by
    rw [hend, List.drop_length]
    exact decodeLoop_exit [] [] [] (Or.inl rfl)
  refine ⟨?_, rfl, fun hms => ?_⟩
  · rw [run_main_eq qpr ms pos rem [] [] h hd]
    have hout : outputDuration ms [] = max (headerDuration ms) 0 := by
      unfold outputDuration
      rw [show ([] : List ℚ).sum = 0 from rfl]
      rw [min_eq_left (by norm_num : (0:ℚ) ≤ 180)]
    rw [hout]
  · refine max_eq_left ?_
    unfold headerDuration
    refine le_min ?_ (by norm_num)
    positivity

theorem header_only_stream_witness :
    run_main [113, 112, 114, 32, 118, 49, 10, 66, 10, 110, 111, 10, 52, 48, 10]
      = .ok (max (headerDuration 40) 0, [], [])
    ∧ ([] : List ℚ).sum = 0
    ∧ ((0 : ℤ) ≤ 40 → max (headerDuration 40) 0 = headerDuration 40) :=
  header_only_stream
    [113, 112, 114, 32, 118, 49, 10, 66, 10, 110, 111, 10, 52, 48, 10] 40 15 3
    rfl rfl
